import Mathlib

/-!
Verification development for the Label Mail Merge core engine.

Strings of the source language are embedded as `List Char`. The components
modelled here are, in source order:

* the delimited-text parser (`detectDelimiter`, `parseLine`, `detectHeaders`,
  `generateColumnHeaders`, `normalizeHeader`, `parseCSV`) and the template
  substitution engine (`applyTemplate`);
* the inline-style segmenter (`parseMarkdownToSegments`);
* the line-wrap engine (`splitIntoLines`) and the grid paginator of
  `generatePDF` (`generatePlacements`).

Records are JavaScript objects: they are embedded as association lists in
insertion order where assigning an existing key overwrites its value in
place (`objSet`).  Width measurement is an external capability; the wrap
engine only adds and compares widths, so it is parametrised over a linearly
ordered additive commutative monoid.
-/

abbrev Str := List Char

/-- Character class of the host language's whitespace (`\s`, `trim`),
restricted to the ASCII range that the engine actually meets. -/
def jsWhitespace (c : Char) : Bool :=
  c = ' ' || c = '\t' || c = '\n' || c = '\r' ||
  c = Char.ofNat 11 || c = Char.ofNat 12

/-- Embedding of `String.prototype.trim`: drop leading and trailing
whitespace. -/
def trim (s : Str) : Str :=
  ((s.dropWhile jsWhitespace).reverse.dropWhile jsWhitespace).reverse

/-- Helper: prepend a character to the first chunk of a chunk list. -/
def consHead (c : Char) : List Str → List Str
  | [] => [[c]]
  | l :: ls => (c :: l) :: ls

/-! ## Delimited-text parser (csv-parser source file) -/

/-- The fixed dictionary of common address-field header names
(`KNOWN_HEADERS` in the source, lower-cased for matching). -/
def knownHeaders : List Str :=
  ([ "name", "first name", "firstname", "first_name", "fname",
     "last name", "lastname", "last_name", "lname", "surname",
     "full name", "fullname", "full_name",
     "address", "address1", "address 1", "address_1", "street",
     "street address", "street_address",
     "address2", "address 2", "address_2", "apt", "apartment", "suite", "unit",
     "city", "town",
     "state", "province", "region",
     "zip", "zipcode", "zip code", "zip_code", "postal", "postal code",
     "postal_code", "postcode",
     "country", "nation",
     "email", "e-mail", "email address", "email_address",
     "phone", "telephone", "phone number", "phone_number", "tel",
     "company", "organization", "org", "business",
     "title", "prefix", "suffix", "salutation",
     "department", "dept" ] : List String).map String.toList

/-- Embedding of `text.split(/\r?\n/)`: a separator is `\r\n` or a lone
`\n`; a `\r` not followed by `\n` is an ordinary character. -/
def splitLines : Str → List Str
  | [] => [[]]
  | [c] =>
    if c = '\n' then [] :: splitLines [] else consHead c (splitLines [])
  | c :: c2 :: rest =>
    if c = '\n' then [] :: splitLines (c2 :: rest)
    else if c = '\r' then
      if c2 = '\n' then [] :: splitLines rest
      else consHead c (splitLines (c2 :: rest))
    else consHead c (splitLines (c2 :: rest))

/-- `detectDelimiter`: count tab characters versus comma characters in the
first line of the raw text (`text.split(/\r?\n/)[0] ?? ''`); choose tab
exactly when its count strictly exceeds the comma count. -/
def detectDelimiter (text : Str) : Char :=
  let firstLine := (splitLines text).headD []
  if firstLine.count ',' < firstLine.count '\t' then '\t' else ','

/-- The scanner loop of `parseLine`.  State: `inQuotes` flag and the
`current` field buffer; the completed field value is pushed trimmed. -/
def parseLineAux (d : Char) : Bool → Str → Str → List Str
  | _, [], cur => [trim cur]
  | true, [c], cur =>
    if c = '"' then parseLineAux d false [] cur
    else parseLineAux d true [] (cur ++ [c])
  | true, c :: c2 :: rest, cur =>
    if c = '"' then
      if c2 = '"' then parseLineAux d true rest (cur ++ ['"'])
      else parseLineAux d false (c2 :: rest) cur
    else parseLineAux d true (c2 :: rest) (cur ++ [c])
  | false, c :: rest, cur =>
    if c = '"' then parseLineAux d true rest cur
    else if c = d then trim cur :: parseLineAux d false rest []
    else parseLineAux d false rest (cur ++ [c])

/-- `parseLine`: tokenize one line into fields with the two-state
(unquoted/quoted) scanner. -/
def parseLine (line : Str) (d : Char) : List Str :=
  parseLineAux d false line []

/-- `detectHeaders`: the first row is a header row iff at least two of its
lower-cased trimmed fields are known header names, or at least one is and
the matches cover at least half the row.  (`matchCount >= length * 0.5` is
exact real arithmetic in the source; over naturals it is
`2 * matchCount >= length`.) -/
def detectHeaders (firstRow : List Str) : Bool :=
  let normalizedRow := firstRow.map (fun f => trim (f.map Char.toLower))
  let matchCount := (normalizedRow.filter (fun f => knownHeaders.contains f)).length
  decide (2 ≤ matchCount) ||
    (decide (0 < matchCount) && decide (normalizedRow.length ≤ 2 * matchCount))

/-- `generateColumnHeaders`: synthetic names `Column1 .. ColumnN`. -/
def generateColumnHeaders (count : ℕ) : List Str :=
  (List.range count).map (fun i => "Column".toList ++ (Nat.repr (i + 1)).toList)

/-- Characters kept by `header.replace(/[^a-zA-Z0-9\s_-]/g, '')`. -/
def keepChar (c : Char) : Bool :=
  (c.isAlpha && decide (c.toNat < 128)) || c.isDigit || jsWhitespace c ||
    c = '_' || c = '-'

/-- Embedding of `cleaned.split(/[\s_-]+/)`: split on maximal runs of
whitespace, underscore, hyphen; a leading or trailing run produces an
empty chunk, as in the host language. -/
def sepChar (c : Char) : Bool := jsWhitespace c || c = '_' || c = '-'

def splitSeps : Str → List Str
  | [] => [[]]
  | c :: rest =>
    if sepChar c then
      match rest.head? with
      | some c2 => if sepChar c2 then splitSeps rest else [] :: splitSeps rest
      | none => [] :: splitSeps rest
    else consHead c (splitSeps rest)

/-- One word of `normalizeHeader`: first character upper-cased, the rest
lower-cased. -/
def titleCase : Str → Str
  | [] => []
  | c :: rest => Char.toUpper c :: rest.map Char.toLower

/-- `normalizeHeader`: strip disallowed characters, trim, split on
whitespace/underscore/hyphen and join in PascalCase. -/
def normalizeHeader (header : Str) : Str :=
  let cleaned := trim (header.filter keepChar)
  ((splitSeps cleaned).map titleCase).flatten

/-- `headerCounts.set(...)` on the embedded `Map`: update the binding in
place if present, append otherwise. -/
def setAssoc {β : Type} (key : Str) (val : β) : List (Str × β) → List (Str × β)
  | [] => [(key, val)]
  | (a, b) :: rest =>
    if a = key then (a, val) :: rest else (a, b) :: setAssoc key val rest

/-- First-match association lookup (embeds both `Map.get` and own-property
access on a record object). -/
def lookupField {β : Type} (k : Str) : List (Str × β) → Option β
  | [] => none
  | (a, b) :: rest => if a = k then some b else lookupField k rest

/-- The `Ensure unique headers` pass of `parseCSV`: left to right, the
first occurrence of a name is kept and the k-th repeat is suffixed with
its occurrence count. -/
def uniquifyHeaders (counts : List (Str × ℕ)) : List Str → List Str
  | [] => []
  | h :: rest =>
    let count := (lookupField h counts).getD 0
    let counts2 := setAssoc h (count + 1) counts
    (if 0 < count then h ++ (Nat.repr (count + 1)).toList else h)
      :: uniquifyHeaders counts2 rest

/-- A record object: association list in insertion order. -/
abbrev RecordObj := List (Str × Str)

/-- Assignment `row[header] = v` on a record object: overwrite in place if
the key exists, append otherwise. -/
def objSet (key : Str) (val : Str) : RecordObj → RecordObj
  | [] => [(key, val)]
  | (a, b) :: rest =>
    if a = key then (a, val) :: rest else (a, b) :: objSet key val rest

/-- The row-building loop of `parseCSV`: `row[headers[j]] = fields[j] ?? ''`
for `j` below the header count. -/
def buildRowGo (fields : List Str) : ℕ → List Str → RecordObj → RecordObj
  | _, [], row => row
  | j, h :: rest, row => buildRowGo fields (j + 1) rest (objSet h (fields.getD j []) row)

def buildRow (headers : List Str) (fields : List Str) : RecordObj :=
  buildRowGo fields 0 headers []

/-- The parsed dataset (`ParsedData` in the source). -/
structure ParsedData where
  headers : List Str
  rows : List RecordObj
  hasHeaders : Bool
deriving Repr

/-- `parseCSV`: split into lines, drop blank lines, detect the delimiter
once from the raw text, classify the first row, normalize and uniquify
headers, and build one record per remaining line. -/
def parseCSV (text : Str) : ParsedData :=
  let lines := (splitLines text).filter (fun line => ¬ trim line = [])
  if lines = [] then ⟨[], [], false⟩
  else
    let delimiter := detectDelimiter text
    let firstRow := parseLine (lines.headD []) delimiter
    let hasHeaders := detectHeaders firstRow
    let headers0 :=
      if hasHeaders then firstRow.map normalizeHeader
      else generateColumnHeaders firstRow.length
    let headers := uniquifyHeaders [] headers0
    let dataLines := if hasHeaders then lines.drop 1 else lines
    let rows := dataLines.map (fun line => buildRow headers (parseLine line delimiter))
    ⟨headers, rows, hasHeaders⟩

/-! ## Template substitution (`applyTemplate`) -/

/-- The property keys every plain object literal inherits from
`Object.prototype` in the host language (ES2023 own properties of
`Object.prototype`, including the Annex B members).  A bracket read
`obj[k]` for such a `k` on an object without an own entry for `k` finds
the inherited member, which is not nullish. -/
def objectPrototypeKeys : List Str :=
  (["constructor", "hasOwnProperty", "isPrototypeOf", "propertyIsEnumerable",
    "toLocaleString", "toString", "valueOf", "__proto__", "__defineGetter__",
    "__defineSetter__", "__lookupGetter__", "__lookupSetter__"] : List String).map
    String.toList

/-- The string the host coerces an inherited `Object.prototype` member to
when the replacement callback returns it: reading `__proto__` yields
`Object.prototype` itself, which coerces to `[object Object]`; reading
`constructor` yields the `Object` function; every other member is a
native function, coerced to the host's NativeFunction notation
`function NAME() ... [native code] ...`. -/
def protoString (k : Str) : Str :=
  if k = "__proto__".toList then "[object Object]".toList
  else if k = "constructor".toList then
    "function Object() \x7b [native code] \x7d".toList
  else "function ".toList ++ k ++ "() \x7b [native code] \x7d".toList

/-- The character class `[^>]` of the placeholder pattern. -/
def isNotGt (c : Char) : Bool := c != '>'

/-- One attempted match of `<<([^>]+)>>` directly after a seen `<<`:
the capture is a maximal nonempty run of characters other than `>`,
followed by `>>`.  Returns the capture and the remainder of the text. -/
def tokenAt (rest : Str) : Option (Str × Str) :=
  let inner := rest.takeWhile isNotGt
  if inner = [] then none
  else if (rest.drop inner.length).take 2 = ['>', '>'] then
    some (inner, rest.drop (inner.length + 2))
  else none

/-- The global-replace scan of `applyTemplate`.  The fuel argument only
bounds the recursion and is initialised to the template length, which the
scan never exhausts; each step either replaces one placeholder token or
copies one character and retries at the next position, exactly like the
host regex engine. -/
def applyTemplateGo (data : RecordObj) : ℕ → Str → Str
  | 0, s => s
  | _ + 1, [] => []
  | fuel + 1, c :: rest =>
    if c = '<' ∧ rest.head? = some '<' then
      match tokenAt rest.tail with
      | some (inner, rem) =>
        (match lookupField (trim inner) data with
         | some v => v
         | none =>
           if objectPrototypeKeys.contains (trim inner) then protoString (trim inner)
           else '<' :: '<' :: (inner ++ ['>', '>'])) ++ applyTemplateGo data fuel rem
      | none => c :: applyTemplateGo data fuel rest
    else c :: applyTemplateGo data fuel rest

/-- `applyTemplate`: replace every `<<Identifier>>` token whose trimmed
identifier is a field of the record by that field's value
(`data[key.trim()] ?? match`).  A token whose identifier is neither a
field nor an inherited `Object.prototype` member is kept verbatim; for an
inherited member (e.g. `toString`) the bracket read is not nullish, so
its string coercion is substituted instead of the token. -/
def applyTemplate (template : Str) (data : RecordObj) : Str :=
  applyTemplateGo data template.length template

/-! ## Inline-style segmenter (markdown source file) -/

/-- A styled run (`TextSegment` in the source). -/
structure TextSegment where
  text : Str
  bold : Bool
  italic : Bool
  underline : Bool
  newline : Bool
deriving DecidableEq, Repr, Inhabited

/-- Flush the pending buffer as one run tagged with the current toggles
(`if (buffer) segments.push(...)`). -/
def flushBuf (buf : Str) (b i u : Bool) : List TextSegment :=
  if buf = [] then [] else [⟨buf, b, i, u, false⟩]

/-- The per-line scanner of `parseMarkdownToSegments`.  Arguments: the
previous character (`remaining[i - 1]`), the rest of the line, the pending
buffer and the three style toggles. -/
def scanLine : Option Char → Str → Str → Bool → Bool → Bool → List TextSegment
  | _, [], buf, b, i, u => flushBuf buf b i u
  | prev, [c], buf, b, i, u =>
    if (c = '*' ∨ c = '_') then
      if ¬ prev = some '\\' then
        flushBuf buf b i u ++ scanLine (some c) [] [] b (!i) u
      else scanLine (some c) [] (buf ++ [c]) b i u
    else scanLine (some c) [] (buf ++ [c]) b i u
  | prev, c :: c2 :: rest, buf, b, i, u =>
    if (c = '*' ∧ c2 = '*') ∨ (c = '_' ∧ c2 = '_') then
      flushBuf buf b i u ++ scanLine (some c) rest [] (!b) i u
    else if (c = '*' ∨ c = '_') then
      if ¬ prev = some '\\' then
        flushBuf buf b i u ++ scanLine (some c) (c2 :: rest) [] b (!i) u
      else scanLine (some c) (c2 :: rest) (buf ++ [c]) b i u
    else if c = '~' ∧ c2 = '~' then
      flushBuf buf b i u ++ scanLine (some c) rest [] b i (!u)
    else scanLine (some c) (c2 :: rest) (buf ++ [c]) b i u

/-- Segments of a single line: the scanner starts with an empty buffer and
all three toggles off (`currentBold`, `currentItalic`, `currentUnderline`
are declared afresh inside the line loop). -/
def lineSegs (line : Str) : List TextSegment :=
  scanLine none line [] false false false

/-- The explicit line-break run pushed between lines. -/
def nlSeg : TextSegment := ⟨[], false, false, false, true⟩

/-- Embedding of `text.split('\n')`. -/
def splitNl : Str → List Str
  | [] => [[]]
  | c :: rest =>
    if c = '\n' then [] :: splitNl rest
    else consHead c (splitNl rest)

/-- `parseMarkdownToSegments`: split on `\n`, push a line-break run before
every line but the first, and scan each line with fresh toggles. -/
def parseMarkdownToSegments (text : Str) : List TextSegment :=
  match splitNl text with
  | [] => []
  | l :: ls => lineSegs l ++ ls.flatMap (fun l2 => nlSeg :: lineSegs l2)

/-! ## Line-wrap engine (`splitIntoLines` in the pdf-generator) -/

/-- Embedding of `segment.text.split(/(\s+)/)` with the `if (!word)
continue` guard applied: the maximal runs of whitespace-only or
non-whitespace characters, in order. -/
def wordsOf : Str → List Str
  | [] => []
  | c :: rest =>
    match wordsOf rest with
    | [] => [[c]]
    | w :: ws =>
      match w with
      | [] => [c] :: w :: ws
      | d :: _ =>
        if jsWhitespace c = jsWhitespace d then (c :: w) :: ws
        else [c] :: w :: ws

/-- State of the wrap loop: completed lines, the current line and its
accumulated width. -/
structure WrapState (α : Type) where
  lines : List (List TextSegment)
  currentLine : List TextSegment
  currentWidth : α

variable {α : Type} [LinearOrderedAddCommMonoid α]

/-- The body of the word loop of `splitIntoLines` for one token. -/
def wordStep (ws : Str → Bool → Bool → α) (maxWidth : α) (seg : TextSegment)
    (st : WrapState α) (word : Str) : WrapState α :=
  if word = [] then st
  else
    let wordWidth := ws word seg.bold seg.italic
    let st1 :=
      if maxWidth < st.currentWidth + wordWidth ∧ ¬ st.currentLine = [] then
        WrapState.mk (st.lines ++ [st.currentLine]) [] 0
      else st
    if st1.currentLine = [] ∧ trim word = [] then st1
    else
      WrapState.mk st1.lines
        (st1.currentLine ++ [⟨word, seg.bold, seg.italic, seg.underline, false⟩])
        (st1.currentWidth + wordWidth)

/-- The body of the segment loop of `splitIntoLines`: a line-break run
closes a nonempty current line unconditionally; any other run is split
into tokens and fed to the word loop. -/
def wrapStep (ws : Str → Bool → Bool → α) (maxWidth : α)
    (st : WrapState α) (seg : TextSegment) : WrapState α :=
  if seg.newline then
    WrapState.mk
      (if st.currentLine = [] then st.lines else st.lines ++ [st.currentLine]) [] 0
  else (wordsOf seg.text).foldl (wordStep ws maxWidth seg) st

/-- Push the pending current line, if any (the epilogue of the loop). -/
def closeLines (st : WrapState α) : List (List TextSegment) :=
  if st.currentLine = [] then st.lines else st.lines ++ [st.currentLine]

/-- `splitIntoLines`: greedy style-aware word wrap of a run sequence into
lines, given the width-measurement capability `ws` and the box width. -/
def splitIntoLines (ws : Str → Bool → Bool → α) (maxWidth : α)
    (segments : List TextSegment) : List (List TextSegment) :=
  closeLines (segments.foldl (wrapStep ws maxWidth) (WrapState.mk [] [] 0))

/-- The measured width of one fragment (the fragment carries the style of
the run it came from). -/
def segWidth (ws : Str → Bool → Bool → α) (f : TextSegment) : α :=
  ws f.text f.bold f.italic

/-- Sum of the measured fragment widths of a wrapped line. -/
def sumWidths (ws : Str → Bool → Bool → α) (l : List TextSegment) : α :=
  (l.map (segWidth ws)).sum

/-- A well-formed produced line (the property asserted by the wrap-width
bound): nonempty, not starting with a whitespace-only fragment, and either
fitting in the supplied maximum width or consisting of a single fragment.
-/
def lineOk (ws : Str → Bool → Bool → α) (maxWidth : α) (l : List TextSegment) : Prop :=
  l ≠ [] ∧ (∀ f, l.head? = some f → ¬ trim f.text = []) ∧
    (sumWidths ws l ≤ maxWidth ∨ l.length = 1)

/-- The invariant of the wrap loop: all completed lines are well formed,
the accumulated width is the width of the current line, and the current
line is empty or well formed except for being still open. -/
def stateOk (ws : Str → Bool → Bool → α) (maxWidth : α) (st : WrapState α) : Prop :=
  (∀ l ∈ st.lines, lineOk ws maxWidth l) ∧
  st.currentWidth = sumWidths ws st.currentLine ∧
  (st.currentLine = [] ∨
    ((∀ f, st.currentLine.head? = some f → ¬ trim f.text = []) ∧
      (sumWidths ws st.currentLine ≤ maxWidth ∨ st.currentLine.length = 1)))

/-! ## Grid paginator (`generatePDF`) -/

/-- Modelled from the spec: the `PaperFormat` record of the external
paper-format catalog (its defining file is not among the sources; the
field list is the one given by the specification's data model and used by
`generatePDF`). -/
structure PaperFormat where
  pageWidth : ℚ
  pageHeight : ℚ
  columns : ℕ
  rows : ℕ
  labelWidth : ℚ
  labelHeight : ℚ
  marginLeft : ℚ
  marginTop : ℚ
  horizontalGap : ℚ
  verticalGap : ℚ

/-- A label placement: grid coordinates and the absolute box origin
computed by `generatePDF` for one record. -/
structure LabelPlacement where
  page : ℕ
  row : ℕ
  column : ℕ
  recordIndex : ℕ
  x : ℚ
  y : ℚ
deriving DecidableEq, Repr

/-- The box origin formula of `generatePDF`:
`x = marginLeft + col * (labelWidth + horizontalGap)`,
`y = marginTop + row * (labelHeight + verticalGap)`. -/
def placementAt (fmt : PaperFormat) (page row col idx : ℕ) : LabelPlacement :=
  ⟨page, row, col, idx,
    fmt.marginLeft + (col : ℚ) * (fmt.labelWidth + fmt.horizontalGap),
    fmt.marginTop + (row : ℚ) * (fmt.labelHeight + fmt.verticalGap)⟩

/-- `Math.ceil(data.length / labelsPerPage)` over the naturals. -/
def totalPages (n lpp : ℕ) : ℕ := (n + lpp - 1) / lpp

/-- The placement enumeration of `generatePDF` for `n` records: for each
page, iterate rows then columns; `dataIndex = page * labelsPerPage +
row * columns + col`, and the inner loop breaks as soon as `dataIndex`
reaches the record count. -/
def generatePlacements (fmt : PaperFormat) (n : ℕ) : List LabelPlacement :=
  let lpp := fmt.columns * fmt.rows
  (List.range (totalPages n lpp)).flatMap (fun page =>
    (List.range fmt.rows).flatMap (fun row =>
      ((List.range fmt.columns).takeWhile
          (fun col => decide (page * lpp + row * fmt.columns + col < n))).map
        (fun col => placementAt fmt page row col (page * lpp + row * fmt.columns + col))))

/-- The closed-form position of record `i`:
`page = i / labelsPerPage`, `row = (i % labelsPerPage) / columns`,
`column = (i % labelsPerPage) % columns`. -/
def placeOf (fmt : PaperFormat) (i : ℕ) : LabelPlacement :=
  let lpp := fmt.columns * fmt.rows
  placementAt fmt (i / lpp) (i % lpp / fmt.columns) (i % lpp % fmt.columns) i

/-! ## Auxiliary definitions used by the claim statements -/

/-- Match attempt of the placeholder pattern at position `i` of a template:
`<<` followed by a nonempty run of characters other than `>` followed by
`>>`. -/
def canMatchAt (t : Str) (i : ℕ) : Bool :=
  decide ((t.drop i).take 2 = ['<', '<']) && (tokenAt ((t.drop i).drop 2)).isSome

/-- Modelled from the claim's words, for comparison with the source's
`detectDelimiter`: count tabs versus commas in the first non-structural
line, i.e. the first line that is non-empty after trimming. -/
def claimedDetectDelimiter (text : Str) : Char :=
  let firstLine := ((splitLines text).filter (fun l => ¬ trim l = [])).headD []
  if firstLine.count ',' < firstLine.count '\t' then '\t' else ','

/-- A concrete integer-valued width measurement (every character one unit
wide), used to evaluate the wrap engine on concrete inputs. -/
def intLenMeasure : Str → Bool → Bool → ℤ := fun s _ _ => (s.length : ℤ)

/-- A concrete plain run, used in concrete wrap-engine inputs. -/
def plainRun (s : String) : TextSegment := ⟨s.toList, false, false, false, false⟩

/-! ## Basic lemmas on the helpers -/

theorem consHead_ne_nil (c : Char) (l : List Str) : consHead c l ≠ [] := by
  cases l <;> simp [consHead]

theorem consHead_cons (c : Char) (l : Str) (ls : List Str) :
    consHead c (l :: ls) = (c :: l) :: ls := rfl

theorem consHead_append_of_ne_nil (c : Char) {l1 : List Str} (l2 : List Str)
    (h : l1 ≠ []) : consHead c (l1 ++ l2) = consHead c l1 ++ l2 := by
  cases l1 with
  | nil => exact absurd rfl h
  | cons a as => simp [consHead]

/-! ## C5: the inline-style segmenter resets its toggles at every newline -/

theorem splitNl_ne_nil (s : Str) : splitNl s ≠ [] := by
  induction s with
  | nil => simp [splitNl]
  | cons c rest ih =>
    by_cases hc : c = '\n' <;> simp [splitNl, hc, consHead_ne_nil]

theorem splitNl_append (xs ys : Str) :
    splitNl (xs ++ '\n' :: ys) = splitNl xs ++ splitNl ys := by
  induction xs with
  | nil => simp [splitNl]
  | cons c rest ih =>
    by_cases hc : c = '\n'
    · simp [splitNl, hc, ih]
    · calc splitNl (c :: rest ++ '\n' :: ys)
          = consHead c (splitNl (rest ++ '\n' :: ys)) := by
            rw [List.cons_append]; simp [splitNl, hc]
        _ = consHead c (splitNl rest ++ splitNl ys) := by rw [ih]
        _ = consHead c (splitNl rest) ++ splitNl ys :=
            consHead_append_of_ne_nil c (splitNl ys) (splitNl_ne_nil rest)
        _ = splitNl (c :: rest) ++ splitNl ys := by simp [splitNl, hc]


/-- C5 (amended): the style toggles of the inline-style segmenter are
reset at every `\n` line break: a text with a newline segments into the
independent segmentations of the two parts around it, joined by a single
line-break run.  In particular an unterminated `**` leaves bold active
only for the remainder of its own line, not for later lines. -/
theorem c5_styles_reset_per_line (xs ys : Str) :
    parseMarkdownToSegments (xs ++ '\n' :: ys) =
      parseMarkdownToSegments xs ++ nlSeg :: parseMarkdownToSegments ys := by
  unfold parseMarkdownToSegments
  rw [splitNl_append]
  obtain ⟨a, as, ha⟩ := List.exists_cons_of_ne_nil (splitNl_ne_nil xs)
  obtain ⟨b, bs, hb⟩ := List.exists_cons_of_ne_nil (splitNl_ne_nil ys)
  rw [ha, hb]
  simp

/-- C5 (counterexample to the claim as stated): for the single-record text
`**bold\nmore`, the run carrying the text after the line break is emitted
with `bold = false`, although the opening `**` was never closed; the
toggles are not stateful across `\n`. -/
theorem c5_counterexample :
    parseMarkdownToSegments "**bold\nmore".toList =
      [⟨"bold".toList, true, false, false, false⟩, nlSeg,
        ⟨"more".toList, false, false, false, false⟩] ∧
    ((parseMarkdownToSegments "**bold\nmore".toList).getD 2 nlSeg).bold = false := by
  constructor <;> decide

/-! ## C7: the delimiter is detected from the raw first line -/

theorem splitLines_first {l : Str} (rest : Str) (hn : '\n' ∉ l) (hr : '\r' ∉ l) :
    splitLines (l ++ '\n' :: rest) = l :: splitLines rest := by
  induction l with
  | nil => cases rest <;> simp [splitLines]
  | cons c l2 ih =>
    have hc1 : c ≠ '\n' := fun h => hn (h ▸ List.mem_cons_self c l2)
    have hc2 : c ≠ '\r' := fun h => hr (h ▸ List.mem_cons_self c l2)
    have hn2 : '\n' ∉ l2 := fun h => hn (List.mem_cons_of_mem c h)
    have hr2 : '\r' ∉ l2 := fun h => hr (List.mem_cons_of_mem c h)
    obtain ⟨d, ds, hd⟩ : ∃ d ds, l2 ++ '\n' :: rest = d :: ds := by
      cases l2 <;> exact ⟨_, _, rfl⟩
    calc splitLines (c :: l2 ++ '\n' :: rest)
        = splitLines (c :: d :: ds) := by rw [List.cons_append, hd]
      _ = consHead c (splitLines (d :: ds)) := by simp [splitLines, hc1, hc2]
      _ = consHead c (l2 :: splitLines rest) := by rw [← hd, ih hn2 hr2]
      _ = (c :: l2) :: splitLines rest := consHead_cons ..

/-- C7 (amended): the field delimiter is chosen once globally by counting
tab versus comma characters in the first line of the raw text (even when
that line is empty or whitespace-only): tab iff its count strictly exceeds
the comma count.  The choice depends only on that first line. -/
theorem c7_delimiter_first_raw_line (l rest rest2 : Str)
    (hn : '\n' ∉ l) (hr : '\r' ∉ l) :
    detectDelimiter (l ++ '\n' :: rest) =
      (if l.count ',' < l.count '\t' then '\t' else ',') ∧
    detectDelimiter (l ++ '\n' :: rest) = detectDelimiter (l ++ '\n' :: rest2) := by
  unfold detectDelimiter
  rw [splitLines_first rest hn hr, splitLines_first rest2 hn hr]
  simp

/-- C7 (witness for the amended theorem). -/
theorem c7_witness :
    detectDelimiter ("a\tb".toList ++ '\n' :: "c,d".toList) =
      (if ("a\tb".toList).count ',' < ("a\tb".toList).count '\t' then '\t' else ',') ∧
    detectDelimiter ("a\tb".toList ++ '\n' :: "c,d".toList) =
      detectDelimiter ("a\tb".toList ++ '\n' :: "e".toList) :=
  c7_delimiter_first_raw_line "a\tb".toList "c,d".toList "e".toList
    (by decide) (by decide)

/-- C7 (counterexample to the claim as stated): for an input whose first
raw line is empty, the source counts characters of that empty line and
falls back to comma, although the first non-structural line is
tab-delimited. -/
theorem c7_counterexample :
    detectDelimiter "\na\tb".toList = ',' ∧
    claimedDetectDelimiter "\na\tb".toList = '\t' ∧
    ¬ detectDelimiter "\na\tb".toList = claimedDetectDelimiter "\na\tb".toList := by
  refine ⟨by decide, by decide, by decide⟩

/-! ## C8: characters inside quotes, and the final trim -/

theorem parseLineAux_true_cons {c : Char} (d : Char) (t cur : Str) (hc : ¬ c = '"') :
    parseLineAux d true (c :: t) cur = parseLineAux d true t (cur ++ [c]) := by
  cases t <;> simp [parseLineAux, hc]

theorem parseLineAux_quoted_append (d : Char) (inner : Str) :
    ∀ rest cur : Str, '"' ∉ inner →
      parseLineAux d true (inner ++ rest) cur = parseLineAux d true rest (cur ++ inner) := by
  induction inner with
  | nil => intro rest cur _; simp
  | cons c inner2 ih =>
    intro rest cur h
    have hc : ¬ c = '"' := fun hh => h (hh ▸ List.mem_cons_self c inner2)
    have h2 : '"' ∉ inner2 := fun hh => h (List.mem_cons_of_mem c hh)
    rw [List.cons_append, parseLineAux_true_cons d (inner2 ++ rest) cur hc, ih rest (cur ++ [c]) h2]
    simp

/-- C8 (amended): inside a quoted section every character other than `"`
is appended to the field buffer verbatim — including delimiter characters
and whitespace — `""` appends one literal `"` and stays quoted, and a lone
`"` exits quoted mode; however the completed field value is pushed through
`trim`, so the leading and trailing whitespace of a quoted field is NOT
retained in the returned field value (interior whitespace and delimiters
are). -/
theorem c8_quoted_verbatim_trimmed (d : Char) (inner rest cur : Str) :
    ('"' ∉ inner →
      parseLineAux d true (inner ++ rest) cur = parseLineAux d true rest (cur ++ inner)) ∧
    (parseLineAux d true ('"' :: '"' :: rest) cur = parseLineAux d true rest (cur ++ ['"'])) ∧
    ('"' ∉ inner → ¬ d = '"' →
      parseLine ('"' :: (inner ++ '"' :: d :: rest)) d = trim inner :: parseLine rest d) := by
  refine ⟨fun h => parseLineAux_quoted_append d inner rest cur h, by simp [parseLineAux], ?_⟩
  intro h hd
  unfold parseLine
  calc parseLineAux d false ('"' :: (inner ++ '"' :: d :: rest)) []
      = parseLineAux d true (inner ++ '"' :: d :: rest) [] := by
        cases inner ++ '"' :: d :: rest <;> simp [parseLineAux]
    _ = parseLineAux d true ('"' :: d :: rest) inner := by
        rw [parseLineAux_quoted_append d inner _ [] h]; simp
    _ = parseLineAux d false (d :: rest) inner := by simp [parseLineAux, hd]
    _ = trim inner :: parseLineAux d false rest [] := by
        have hdq : ¬ d = '"' := hd
        cases rest <;> simp [parseLineAux, hdq]

/-- C8 (witness for the amended theorem). -/
theorem c8_witness :
    parseLineAux ',' true (" a ".toList ++ "x".toList) [] =
      parseLineAux ',' true "x".toList ([] ++ " a ".toList) ∧
    parseLineAux ',' true ('"' :: '"' :: "x".toList) [] =
      parseLineAux ',' true "x".toList ([] ++ ['"']) ∧
    parseLine ('"' :: (" a ".toList ++ '"' :: ',' :: "b".toList)) ',' =
      trim " a ".toList :: parseLine "b".toList ',' :=
  ⟨(c8_quoted_verbatim_trimmed ',' " a ".toList "x".toList []).1 (by decide),
   (c8_quoted_verbatim_trimmed ',' " a ".toList "x".toList []).2.1,
   (c8_quoted_verbatim_trimmed ',' " a ".toList "b".toList []).2.2 (by decide) (by decide)⟩

/-- C8 (counterexample to the claim as stated): the field written as the
quoted string `" a "` comes back as `a` — its leading and trailing
whitespace is dropped by the final trim, not retained. -/
theorem c8_counterexample :
    parseLine "\" a \"".toList ',' = ["a".toList] ∧
    ¬ parseLine "\" a \"".toList ',' = [" a ".toList] := by
  refine ⟨by decide, by decide⟩

/-! ## C10: a backslash-escaped italic marker neither toggles nor vanishes -/

/-- C10 (confirmed): a single `*` or `_` immediately preceded by a
backslash does not toggle italic, and neither the backslash nor the marker
is consumed: the scanner appends both characters to the pending buffer and
continues with unchanged style state, so both appear literally in the
emitted run's text.  (The side condition excludes the double-marker case,
which the source checks first.) -/
theorem c10_escaped_marker_literal (prev : Option Char) (buf : Str) (b i u : Bool)
    (rest : Str) (m : Char) (hm : m = '*' ∨ m = '_') (hr : ¬ rest.head? = some m) :
    scanLine prev ('\\' :: m :: rest) buf b i u =
      scanLine (some m) rest (buf ++ ['\\', m]) b i u := by
  have step1 : scanLine prev ('\\' :: m :: rest) buf b i u =
      scanLine (some '\\') (m :: rest) (buf ++ ['\\']) b i u := by
    rcases hm with h | h <;> subst h <;> simp [scanLine]
  rw [step1]
  cases rest with
  | nil =>
    rcases hm with h | h <;> subst h <;> simp [scanLine, List.append_assoc]
  | cons r rest2 =>
    have hrm : ¬ r = m := fun hh => hr (by simp [hh])
    rcases hm with h | h <;> subst h <;>
      simp [scanLine, hrm, List.append_assoc]

/-- C10 (witness): concrete instance of the theorem, together with the
resulting run of the full segmenter on `a\*b`, which contains both the
backslash and the marker literally and carries no italic style. -/
theorem c10_witness :
    scanLine none ('\\' :: '*' :: "b".toList) ['a'] false false false =
      scanLine (some '*') "b".toList (['a'] ++ ['\\', '*']) false false false ∧
    parseMarkdownToSegments "a\\*b".toList =
      [⟨"a\\*b".toList, false, false, false, false⟩] :=
  ⟨c10_escaped_marker_literal none ['a'] false false false "b".toList '*'
      (Or.inl rfl) (by decide),
   by decide⟩

/-! ## C6: template substitution policy -/

theorem canMatchAt_cons (c : Char) (t : Str) (i : ℕ) :
    canMatchAt (c :: t) (i + 1) = canMatchAt t i := rfl

theorem canMatchAt_of_le {t : Str} {i : ℕ} (h : t.length ≤ i) :
    canMatchAt t i = false := by
  unfold canMatchAt
  rw [List.drop_eq_nil_of_le h]
  decide

theorem applyTemplateGo_no_match (data : RecordObj) (t : Str)
    (h : ∀ i, canMatchAt t i = false) : ∀ f, applyTemplateGo data f t = t := by
  induction t with
  | nil => intro f; cases f <;> rfl
  | cons c rest ih =>
    intro f
    cases f with
    | zero => rfl
    | succ f =>
      have hrec : applyTemplateGo data f rest = rest :=
        ih (fun i => by rw [← canMatchAt_cons c rest i]; exact h (i + 1)) f
      by_cases hcc : c = '<' ∧ rest.head? = some '<'
      · obtain ⟨hc, hh⟩ := hcc
        subst hc
        cases rest with
        | nil => simp at hh
        | cons a as =>
          have ha : a = '<' := by simpa using hh
          subst ha
          have h0 := h 0
          have hnone : tokenAt as = none := by
            cases htok : tokenAt as with
            | none => rfl
            | some p =>
              unfold canMatchAt at h0
              simp [htok] at h0
          simp [applyTemplateGo, hnone, hrec]
      · simp [applyTemplateGo, hcc, hrec]

theorem takeWhile_append_all {p : Char → Bool} {inner : Str} (y : Char) (ys : Str)
    (hall : ∀ c ∈ inner, p c = true) (hy : p y = false) :
    (inner ++ y :: ys).takeWhile p = inner := by
  induction inner with
  | nil => simp [List.takeWhile_cons, hy]
  | cons a as ih =>
    have ha : p a = true := hall a (List.mem_cons_self a as)
    have has : ∀ c ∈ as, p c = true := fun c hc => hall c (List.mem_cons_of_mem a hc)
    simp [List.takeWhile_cons, ha, ih has]

theorem tokenAt_of_clean {inner : Str} (post : Str) (hne : inner ≠ [])
    (hgt : '>' ∉ inner) :
    tokenAt (inner ++ '>' :: '>' :: post) = some (inner, post) := by
  have htw : (inner ++ '>' :: '>' :: post).takeWhile isNotGt = inner :=
    @takeWhile_append_all isNotGt inner '>' ('>' :: post)
      (fun c hc => by
        have hcne : c ≠ '>' := fun hh => hgt (hh ▸ hc)
        simp [isNotGt, hcne])
      (by decide)
  unfold tokenAt
  rw [htw]
  have hdrop : (inner ++ '>' :: '>' :: post).drop inner.length = '>' :: '>' :: post :=
    List.drop_left inner _
  have hdrop2 : (inner ++ '>' :: '>' :: post).drop (inner.length + 2) = post := by
    rw [← List.drop_drop, hdrop]
    rfl
  simp [hne, hdrop, hdrop2]

theorem tokenAt_some_length {r inner rem : Str} (h : tokenAt r = some (inner, rem)) :
    rem.length ≤ r.length := by
  simp only [tokenAt] at h
  split at h
  · simp at h
  · split at h
    · simp only [Option.some.injEq, Prod.mk.injEq] at h
      rw [← h.2, List.length_drop]
      omega
    · simp at h

theorem applyTemplateGo_fuel (data : RecordObj) :
    ∀ f1 f2 t, t.length ≤ f1 → t.length ≤ f2 →
      applyTemplateGo data f1 t = applyTemplateGo data f2 t := by
  intro f1
  induction f1 with
  | zero =>
    intro f2 t h1 _
    have : t = [] := List.eq_nil_of_length_eq_zero (Nat.le_zero.mp h1)
    subst this; cases f2 <;> rfl
  | succ f1 ih =>
    intro f2 t h1 h2
    cases t with
    | nil => cases f2 <;> rfl
    | cons c rest =>
      cases f2 with
      | zero => simp at h2
      | succ g =>
        have hr1 : rest.length ≤ f1 := by simpa using h1
        have hr2 : rest.length ≤ g := by simpa using h2
        by_cases hcc : c = '<' ∧ rest.head? = some '<'
        · cases htok : tokenAt rest.tail with
          | none => simp [applyTemplateGo, hcc, htok, ih g rest hr1 hr2]
          | some pr =>
            obtain ⟨inner, rem⟩ := pr
            have hlen : rem.length ≤ rest.tail.length := tokenAt_some_length htok
            have htail : rest.tail.length ≤ rest.length := by
              cases rest <;> simp
            have hrem1 : rem.length ≤ f1 := le_trans (le_trans hlen htail) hr1
            have hrem2 : rem.length ≤ g := le_trans (le_trans hlen htail) hr2
            simp [applyTemplateGo, hcc, htok, ih g rem hrem1 hrem2]
        · simp [applyTemplateGo, hcc, ih g rest hr1 hr2]

theorem applyTemplate_token (data : RecordObj) (inner post : Str)
    (hne : inner ≠ []) (hgt : '>' ∉ inner) :
    applyTemplate ('<' :: '<' :: (inner ++ '>' :: '>' :: post)) data =
      (match lookupField (trim inner) data with
       | some v => v
       | none =>
         if objectPrototypeKeys.contains (trim inner) then protoString (trim inner)
         else '<' :: '<' :: (inner ++ ['>', '>'])) ++ applyTemplate post data := by
  unfold applyTemplate
  have hlen : ('<' :: '<' :: (inner ++ '>' :: '>' :: post)).length =
      (inner.length + post.length + 3) + 1 := by simp; omega
  rw [hlen]
  have hstep : applyTemplateGo data ((inner.length + post.length + 3) + 1)
      ('<' :: '<' :: (inner ++ '>' :: '>' :: post)) =
      (match lookupField (trim inner) data with
       | some v => v
       | none =>
         if objectPrototypeKeys.contains (trim inner) then protoString (trim inner)
         else '<' :: '<' :: (inner ++ ['>', '>'])) ++
        applyTemplateGo data (inner.length + post.length + 3) post := by
    simp [applyTemplateGo]
    rw [tokenAt_of_clean post hne hgt]
  rw [hstep, applyTemplateGo_fuel data (inner.length + post.length + 3) post.length post
    (by omega) (le_refl _)]

/-- C6 (amended): template substitution replaces a `<<Identifier>>`
token whose trimmed identifier is a field of the record by that field's
value; a token whose identifier is neither a field nor an inherited
`Object.prototype` member name is left in the output verbatim; a token
naming an inherited `Object.prototype` member (`toString`, `valueOf`,
`__proto__`, ...) — which can never be a normalized header — is replaced
by that member's string coercion, because the bracket read
`data[key.trim()]` finds the inherited member and it is not nullish; a
template in which the placeholder pattern matches nowhere is returned
unchanged; and substitution is single-pass and non-recursive — the
substituted value is spliced into the output without being re-scanned,
and scanning resumes after the token. -/
theorem c6_applyTemplate_policy (data : RecordObj) (t inner post v : Str) :
    ((∀ i, i < t.length → canMatchAt t i = false) → applyTemplate t data = t) ∧
    (inner ≠ [] → '>' ∉ inner → lookupField (trim inner) data = none →
      objectPrototypeKeys.contains (trim inner) = false →
      applyTemplate ('<' :: '<' :: (inner ++ '>' :: '>' :: post)) data =
        '<' :: '<' :: (inner ++ '>' :: '>' :: applyTemplate post data)) ∧
    (inner ≠ [] → '>' ∉ inner → lookupField (trim inner) data = some v →
      applyTemplate ('<' :: '<' :: (inner ++ '>' :: '>' :: post)) data =
        v ++ applyTemplate post data) ∧
    (inner ≠ [] → '>' ∉ inner → lookupField (trim inner) data = none →
      objectPrototypeKeys.contains (trim inner) = true →
      applyTemplate ('<' :: '<' :: (inner ++ '>' :: '>' :: post)) data =
        protoString (trim inner) ++ applyTemplate post data) := by
  refine ⟨?_, ?_, ?_, ?_⟩
  · intro h
    exact applyTemplateGo_no_match data t
      (fun i => if hi : i < t.length then h i hi else canMatchAt_of_le (le_of_not_lt hi)) _
  · intro hne hgt hnone hp
    rw [applyTemplate_token data inner post hne hgt, hnone]
    have hp2 : ¬ trim inner ∈ objectPrototypeKeys := by simpa using hp
    simp [hp2]
  · intro hne hgt hsome
    rw [applyTemplate_token data inner post hne hgt, hsome]
  · intro hne hgt hnone hp
    rw [applyTemplate_token data inner post hne hgt, hnone]
    have hp2 : trim inner ∈ objectPrototypeKeys := by simpa using hp
    simp [hp2]

/-- C6 (witness for the amended theorem): a placeholder-free template is
returned unchanged; a token that names neither a field nor a prototype
member stays verbatim; a known token is replaced by the field value; a
replacement value containing placeholder syntax is not re-scanned; and a
token naming the inherited `toString` member is replaced by that member's
string coercion. -/
theorem c6_witness :
    applyTemplate "Hello world".toList [("Name".toList, "John".toList)] =
      "Hello world".toList ∧
    applyTemplate "<<Unknown>>".toList [("Name".toList, "John".toList)] =
      "<<Unknown>>".toList ∧
    applyTemplate "<<Name>>!".toList [("Name".toList, "John".toList)] =
      "John!".toList ∧
    applyTemplate "<<X>>".toList [("X".toList, "<<Y>>".toList)] = "<<Y>>".toList ∧
    applyTemplate "<<toString>>".toList [("Name".toList, "John".toList)] =
      protoString "toString".toList :=
  ⟨(c6_applyTemplate_policy [("Name".toList, "John".toList)]
      "Hello world".toList [] [] []).1 (by decide),
   Eq.trans ((c6_applyTemplate_policy [("Name".toList, "John".toList)] []
      "Unknown".toList [] []).2.1 (by decide) (by decide) (by decide) (by decide))
     (by decide),
   Eq.trans ((c6_applyTemplate_policy [("Name".toList, "John".toList)] []
      "Name".toList "!".toList "John".toList).2.2.1 (by decide) (by decide) (by decide))
     (by decide),
   Eq.trans ((c6_applyTemplate_policy [("X".toList, "<<Y>>".toList)] []
      "X".toList [] "<<Y>>".toList).2.2.1 (by decide) (by decide) (by decide)) (by decide),
   Eq.trans ((c6_applyTemplate_policy [("Name".toList, "John".toList)] []
      "toString".toList [] []).2.2.2 (by decide) (by decide) (by decide) (by decide))
     (by decide)⟩

/-- C6 (counterexample to the claim as stated): the token `<<toString>>`
matches no header of the record, yet it is not left verbatim — the
bracket read finds the inherited `Object.prototype.toString` function,
which is not nullish, and the token is replaced by its string coercion.
-/
theorem c6_counterexample :
    applyTemplate "<<toString>>".toList [("Name".toList, "John".toList)] =
      "function toString() \x7b [native code] \x7d".toList ∧
    ¬ applyTemplate "<<toString>>".toList [("Name".toList, "John".toList)] =
        "<<toString>>".toList := by
  refine ⟨by decide, by decide⟩

/-! ## C1 and C2: header uniqueness and rectangular rows -/

theorem lookupField_cons_ne {β : Type} {a k : Str} {b : β} {rest : List (Str × β)}
    (h : ¬ a = k) : lookupField k ((a, b) :: rest) = lookupField k rest := by
  simp [lookupField, h]

theorem lookupField_append_none {β : Type} {k : Str} {l1 : List (Str × β)}
    (l2 : List (Str × β)) (h : lookupField k l1 = none) :
    lookupField k (l1 ++ l2) = lookupField k l2 := by
  induction l1 with
  | nil => rfl
  | cons p rest ih =>
    obtain ⟨a, b⟩ := p
    by_cases hak : a = k
    · simp [lookupField, hak] at h
    · rw [List.cons_append, lookupField_cons_ne hak]
      exact ih (by rwa [lookupField_cons_ne hak] at h)

theorem objSet_append_of_none {k : Str} {v : Str} {row : RecordObj}
    (h : lookupField k row = none) : objSet k v row = row ++ [(k, v)] := by
  induction row with
  | nil => rfl
  | cons p rest ih =>
    obtain ⟨a, b⟩ := p
    by_cases hak : a = k
    · simp [lookupField, hak] at h
    · simp only [objSet, hak, if_false, List.cons_append, List.cons.injEq, true_and]
      exact ih (by rwa [lookupField_cons_ne hak] at h)

theorem buildRowGo_eq (fields : List Str) :
    ∀ (hs : List Str) (j : ℕ) (row : RecordObj), hs.Nodup →
      (∀ h ∈ hs, lookupField h row = none) →
      buildRowGo fields j hs row =
        row ++ (List.enumFrom j hs).map (fun p => (p.2, fields.getD p.1 [])) := by
  intro hs
  induction hs with
  | nil => intro j row _ _; simp [buildRowGo]
  | cons h hs2 ih =>
    intro j row hnd hnone
    obtain ⟨hh, hnd2⟩ := List.nodup_cons.mp hnd
    have hset : objSet h (fields.getD j []) row = row ++ [(h, fields.getD j [])] :=
      objSet_append_of_none (hnone h (List.mem_cons_self h hs2))
    have hnone2 : ∀ h2 ∈ hs2, lookupField h2 (row ++ [(h, fields.getD j [])]) = none := by
      intro h2 hh2
      rw [lookupField_append_none _ (hnone h2 (List.mem_cons_of_mem h hh2))]
      have : ¬ h = h2 := fun he => hh (he ▸ hh2)
      simp [lookupField, this]
    calc buildRowGo fields j (h :: hs2) row
        = buildRowGo fields (j + 1) hs2 (row ++ [(h, fields.getD j [])]) := by
          rw [buildRowGo, hset]
      _ = row ++ [(h, fields.getD j [])] ++
            (List.enumFrom (j + 1) hs2).map (fun p => (p.2, fields.getD p.1 [])) :=
          ih (j + 1) _ hnd2 hnone2
      _ = row ++ (List.enumFrom j (h :: hs2)).map (fun p => (p.2, fields.getD p.1 [])) := by
          simp

theorem buildRow_eq_of_nodup {headers : List Str} (fields : List Str)
    (hnd : headers.Nodup) :
    buildRow headers fields = headers.enum.map (fun p => (p.2, fields.getD p.1 [])) := by
  unfold buildRow
  rw [buildRowGo_eq fields headers 0 [] hnd (fun h _ => rfl)]
  rfl

theorem lookupField_isSome_of_mem_keys {β : Type} (L : List (Str × β)) (h : Str)
    (hm : h ∈ L.map Prod.fst) : ∃ v, lookupField h L = some v := by
  induction L with
  | nil => simp at hm
  | cons p rest ih =>
    obtain ⟨a, b⟩ := p
    by_cases hah : a = h
    · exact ⟨b, by simp [lookupField, hah]⟩
    · rw [lookupField_cons_ne hah]
      have hm2 : h ∈ a :: rest.map Prod.fst := by rw [List.map_cons] at hm; exact hm
      rcases List.mem_cons.mp hm2 with h1 | h1
      · exact absurd h1.symm hah
      · exact ih h1

theorem parseCSV_rows_shape (text : Str) :
    ∀ r ∈ (parseCSV text).rows, ∃ fields, r = buildRow (parseCSV text).headers fields := by
  simp only [parseCSV]
  split
  · simp
  · intro r hr
    simp only [List.mem_map] at hr
    obtain ⟨line, _, h1⟩ := hr
    exact ⟨parseLine line _, h1.symm⟩

/-- C1 (amended): whenever the produced headers are pairwise distinct,
every parsed record is rectangular: it is exactly the association list
pairing the j-th header with the j-th parsed field of its line, padded
with the empty string when the line is short and truncated at the header
count; consequently its field count equals the header count and every
header looks up to a value.  (Without the distinctness proviso the claim
fails, because the uniquification pass can emit a duplicate header, and
the later assignment then overwrites the earlier field.) -/
theorem c1_rows_rectangular_of_nodup (text : Str)
    (hnd : (parseCSV text).headers.Nodup) :
    ∀ r ∈ (parseCSV text).rows,
      (∃ fields : List Str,
        r = (parseCSV text).headers.enum.map (fun p => (p.2, fields.getD p.1 []))) ∧
      r.length = (parseCSV text).headers.length ∧
      ∀ h ∈ (parseCSV text).headers, ∃ v, lookupField h r = some v := by
  intro r hr
  obtain ⟨fields, rfl⟩ := parseCSV_rows_shape text r hr
  rw [buildRow_eq_of_nodup fields hnd]
  refine ⟨⟨fields, rfl⟩, by simp, ?_⟩
  intro h hh
  apply lookupField_isSome_of_mem_keys
  have hkeys : ((parseCSV text).headers.enum.map
      (fun p => (p.2, fields.getD p.1 []))).map Prod.fst = (parseCSV text).headers := by
    rw [List.map_map]
    exact List.enum_map_snd (parseCSV text).headers
  rw [hkeys]
  exact hh

/-- C1 (witness for the amended theorem, also exhibiting the padding of a
short row with an empty-string field). -/
theorem c1_witness :
    (parseCSV "Name,City\nJohn".toList).headers.Nodup ∧
    ∀ r ∈ (parseCSV "Name,City\nJohn".toList).rows,
      (∃ fields : List Str,
        r = (parseCSV "Name,City\nJohn".toList).headers.enum.map
          (fun p => (p.2, fields.getD p.1 []))) ∧
      r.length = (parseCSV "Name,City\nJohn".toList).headers.length ∧
      ∀ h ∈ (parseCSV "Name,City\nJohn".toList).headers, ∃ v, lookupField h r = some v :=
  ⟨by decide, c1_rows_rectangular_of_nodup "Name,City\nJohn".toList (by decide)⟩

/-- C1 (counterexample to the claim as stated): on the header line
`City,City,City2` the uniquification produces the duplicate header
`City2`, the third assignment overwrites the second field, and the record
has 2 fields while `headers.length = 3`. -/
theorem c1_counterexample :
    ((parseCSV "City,City,City2\nx,y,z".toList).rows.headD []).length = 2 ∧
    (parseCSV "City,City,City2\nx,y,z".toList).headers.length = 3 ∧
    ¬ ((parseCSV "City,City,City2\nx,y,z".toList).rows.headD []).length =
        (parseCSV "City,City,City2\nx,y,z".toList).headers.length := by
  refine ⟨by decide, by decide, by decide⟩

/-- C2 (evaluation at the failing input): processing the header row
`City,City,City2` left to right, the second `City` is suffixed with its
occurrence count and becomes `City2`, which collides with the third
header, whose normalized name is already `City2` and which is kept
unchanged as a first occurrence; the resulting header sequence contains a
duplicate, contradicting the uniqueness invariant that the pass (labelled
`Ensure unique headers` in the source) is meant to establish. -/
theorem c2_duplicate_headers_eval :
    (parseCSV "City,City,City2\nx,y,z".toList).headers =
      ["City".toList, "City2".toList, "City2".toList] ∧
    ¬ (parseCSV "City,City,City2\nx,y,z".toList).headers.Nodup := by
  refine ⟨by decide, by decide⟩

/-! ## C4: the greedy wrap-width bound -/

theorem sumWidths_nil (ws : Str → Bool → Bool → α) : sumWidths ws [] = 0 := by
  simp [sumWidths]

theorem sumWidths_append (ws : Str → Bool → Bool → α) (l1 l2 : List TextSegment) :
    sumWidths ws (l1 ++ l2) = sumWidths ws l1 + sumWidths ws l2 := by
  simp [sumWidths]

theorem head?_append_ne_nil {γ : Type} {l : List γ} (l2 : List γ) (h : l ≠ []) :
    (l ++ l2).head? = l.head? := by
  cases l with
  | nil => exact absurd rfl h
  | cons a t => rfl

theorem wordStep_ok {ws : Str → Bool → Bool → α} {mw : α} {seg : TextSegment}
    {st : WrapState α} (h : stateOk ws mw st) (w : Str) :
    stateOk ws mw (wordStep ws mw seg st w) := by
  obtain ⟨hlines, hwidth, hcur⟩ := h
  simp only [wordStep]
  by_cases hw : w = []
  · rw [if_pos hw]
    exact ⟨hlines, hwidth, hcur⟩
  rw [if_neg hw]
  by_cases hclose : mw < st.currentWidth + ws w seg.bold seg.italic ∧ ¬ st.currentLine = []
  · rw [if_pos hclose]
    have hcl : lineOk ws mw st.currentLine := by
      rcases hcur with hnil | hok
      · exact absurd hnil hclose.2
      · exact ⟨hclose.2, hok.1, hok.2⟩
    have hlines2 : ∀ l ∈ st.lines ++ [st.currentLine], lineOk ws mw l := by
      intro l hl
      rcases List.mem_append.mp hl with hl | hl
      · exact hlines l hl
      · rw [List.mem_singleton.mp hl]; exact hcl
    by_cases hws : trim w = []
    · rw [if_pos ⟨rfl, hws⟩]
      exact ⟨hlines2, (sumWidths_nil ws).symm, Or.inl rfl⟩
    · rw [if_neg (fun hc => hws hc.2)]
      refine ⟨hlines2, by simp [sumWidths, segWidth], Or.inr ⟨?_, Or.inr rfl⟩⟩
      intro f hf
      simp only [List.nil_append, List.head?_cons, Option.some.injEq] at hf
      rw [← hf]
      exact hws
  rw [if_neg hclose]
  by_cases hcemp : st.currentLine = []
  · by_cases hws : trim w = []
    · rw [if_pos ⟨hcemp, hws⟩]
      exact ⟨hlines, hwidth, hcur⟩
    · rw [if_neg (fun hc => hws hc.2)]
      refine ⟨hlines, ?_, Or.inr ⟨?_, Or.inr ?_⟩⟩
      · dsimp only
        rw [hwidth, hcemp, sumWidths_nil]
        simp [sumWidths, segWidth]
      · intro f hf
        dsimp only at hf
        rw [hcemp] at hf
        simp only [List.nil_append, List.head?_cons, Option.some.injEq] at hf
        rw [← hf]
        exact hws
      · dsimp only
        rw [hcemp]
        rfl
  · have hok : (∀ f, st.currentLine.head? = some f → ¬ trim f.text = []) ∧
        (sumWidths ws st.currentLine ≤ mw ∨ st.currentLine.length = 1) := by
      rcases hcur with hnil | hok
      · exact absurd hnil hcemp
      · exact hok
    have hle : st.currentWidth + ws w seg.bold seg.italic ≤ mw := by
      rcases not_and_or.mp hclose with hc | hc
      · exact le_of_not_lt hc
      · exact absurd (not_not.mp hc) hcemp
    rw [if_neg (fun hc => hcemp hc.1)]
    refine ⟨hlines, ?_, Or.inr ⟨?_, Or.inl ?_⟩⟩
    · dsimp only
      rw [sumWidths_append, ← hwidth]
      simp [sumWidths, segWidth]
    · intro f hf
      dsimp only at hf
      rw [head?_append_ne_nil _ hcemp] at hf
      exact hok.1 f hf
    · dsimp only
      rw [sumWidths_append, ← hwidth]
      have hsw : sumWidths ws [⟨w, seg.bold, seg.italic, seg.underline, false⟩] =
          ws w seg.bold seg.italic := by simp [sumWidths, segWidth]
      rw [hsw]
      exact hle

theorem foldl_wordStep_ok {ws : Str → Bool → Bool → α} {mw : α} {seg : TextSegment} :
    ∀ (words : List Str) (st : WrapState α), stateOk ws mw st →
      stateOk ws mw (words.foldl (wordStep ws mw seg) st) := by
  intro words
  induction words with
  | nil => intro st h; exact h
  | cons w rest ih => intro st h; exact ih _ (wordStep_ok h w)

theorem wrapStep_ok {ws : Str → Bool → Bool → α} {mw : α}
    {st : WrapState α} (h : stateOk ws mw st) (seg : TextSegment) :
    stateOk ws mw (wrapStep ws mw st seg) := by
  obtain ⟨hlines, hwidth, hcur⟩ := h
  simp only [wrapStep]
  by_cases hnl : seg.newline = true
  · rw [if_pos hnl]
    refine ⟨?_, (sumWidths_nil ws).symm, Or.inl rfl⟩
    by_cases hemp : st.currentLine = []
    · rw [if_pos hemp]
      exact hlines
    · rw [if_neg hemp]
      intro l hl
      rcases List.mem_append.mp hl with hl | hl
      · exact hlines l hl
      · rw [List.mem_singleton.mp hl]
        rcases hcur with hnil | hok
        · exact absurd hnil hemp
        · exact ⟨hemp, hok.1, hok.2⟩
  · rw [if_neg hnl]
    exact foldl_wordStep_ok _ st ⟨hlines, hwidth, hcur⟩

theorem splitIntoLines_ok {ws : Str → Bool → Bool → α} {mw : α}
    (segments : List TextSegment) :
    ∀ l ∈ splitIntoLines ws mw segments, lineOk ws mw l := by
  have hfold : ∀ (segs : List TextSegment) (st : WrapState α), stateOk ws mw st →
      stateOk ws mw (segs.foldl (wrapStep ws mw) st) := by
    intro segs
    induction segs with
    | nil => intro st h; exact h
    | cons s rest ih => intro st h; exact ih _ (wrapStep_ok h s)
  have hinit : stateOk ws mw (WrapState.mk ([] : List (List TextSegment)) [] 0) :=
    ⟨by intro l hl; simp at hl, (sumWidths_nil ws).symm, Or.inl rfl⟩
  obtain ⟨hlines, hwidth, hcur⟩ :=
    hfold segments (WrapState.mk [] [] 0) hinit
  unfold splitIntoLines closeLines
  by_cases hemp : (segments.foldl (wrapStep ws mw) (WrapState.mk [] [] 0)).currentLine = []
  · rw [if_pos hemp]
    exact hlines
  · rw [if_neg hemp]
    intro l hl
    rcases List.mem_append.mp hl with hl | hl
    · exact hlines l hl
    · rw [List.mem_singleton.mp hl]
      rcases hcur with hnil | hok
      · exact absurd hnil hemp
      · exact ⟨hemp, hok.1, hok.2⟩

/-- C4 (confirmed): every line produced by the greedy wrap is nonempty,
never starts with a whitespace-only fragment, and the sum of its
fragments' measured widths is at most the supplied maximum width except
when the line consists of a single fragment — the case of one token wider
than the box, which occupies its own line.  (The bound holds for every
width-measurement function, in particular every non-negative one.) -/
theorem c4_wrap_width_bound (ws : Str → Bool → Bool → α) (mw : α)
    (segments : List TextSegment) :
    ∀ l ∈ splitIntoLines ws mw segments,
      l ≠ [] ∧ (∀ f, l.head? = some f → ¬ trim f.text = []) ∧
        (sumWidths ws l ≤ mw ∨ l.length = 1) :=
  splitIntoLines_ok segments

/-- C4 (witness): concrete wrap of `hello world` into a box of width 6
with the one-unit-per-character measure; the line `world` is a whole line,
the line `hello ` fits exactly. -/
theorem c4_witness :
    [plainRun "world"] ∈ splitIntoLines intLenMeasure (6 : ℤ) [plainRun "hello world"] ∧
    ([plainRun "world"] ≠ [] ∧
      (∀ f, [plainRun "world"].head? = some f → ¬ trim f.text = []) ∧
      (sumWidths intLenMeasure [plainRun "world"] ≤ (6 : ℤ) ∨
        [plainRun "world"].length = 1)) :=
  ⟨by decide,
   c4_wrap_width_bound intLenMeasure (6 : ℤ) [plainRun "hello world"]
     [plainRun "world"] (by decide)⟩

/-! ## C9: line-break runs and the produced lines -/

theorem wordStep_shift (ws : Str → Bool → Bool → α) (mw : α) (seg : TextSegment)
    (L : List (List TextSegment)) (st : WrapState α) (w : Str) :
    wordStep ws mw seg ⟨L ++ st.lines, st.currentLine, st.currentWidth⟩ w =
      ⟨L ++ (wordStep ws mw seg st w).lines, (wordStep ws mw seg st w).currentLine,
        (wordStep ws mw seg st w).currentWidth⟩ := by
  simp only [wordStep]
  by_cases hw : w = []
  · rw [if_pos hw, if_pos hw]
  rw [if_neg hw, if_neg hw]
  by_cases hclose : mw < st.currentWidth + ws w seg.bold seg.italic ∧ ¬ st.currentLine = []
  · rw [if_pos hclose, if_pos hclose]
    by_cases hws : trim w = []
    · rw [if_pos ⟨rfl, hws⟩, if_pos ⟨rfl, hws⟩]
      simp
    · rw [if_neg (fun hc => hws hc.2), if_neg (fun hc => hws hc.2)]
      simp
  · rw [if_neg hclose, if_neg hclose]
    by_cases hskip : st.currentLine = [] ∧ trim w = []
    · rw [if_pos hskip, if_pos hskip]
    · rw [if_neg hskip, if_neg hskip]

theorem foldl_wordStep_shift (ws : Str → Bool → Bool → α) (mw : α) (seg : TextSegment) :
    ∀ (words : List Str) (L : List (List TextSegment)) (st : WrapState α),
      words.foldl (wordStep ws mw seg) ⟨L ++ st.lines, st.currentLine, st.currentWidth⟩ =
        ⟨L ++ (words.foldl (wordStep ws mw seg) st).lines,
          (words.foldl (wordStep ws mw seg) st).currentLine,
          (words.foldl (wordStep ws mw seg) st).currentWidth⟩ := by
  intro words
  induction words with
  | nil => intro L st; rfl
  | cons w rest ih =>
    intro L st
    rw [List.foldl_cons, List.foldl_cons, wordStep_shift ws mw seg L st w]
    exact ih L (wordStep ws mw seg st w)

theorem wrapStep_shift (ws : Str → Bool → Bool → α) (mw : α)
    (L : List (List TextSegment)) (st : WrapState α) (seg : TextSegment) :
    wrapStep ws mw ⟨L ++ st.lines, st.currentLine, st.currentWidth⟩ seg =
      ⟨L ++ (wrapStep ws mw st seg).lines, (wrapStep ws mw st seg).currentLine,
        (wrapStep ws mw st seg).currentWidth⟩ := by
  simp only [wrapStep]
  by_cases hnl : seg.newline = true
  · rw [if_pos hnl, if_pos hnl]
    by_cases hemp : st.currentLine = [] <;> simp [hemp]
  · rw [if_neg hnl, if_neg hnl]
    exact foldl_wordStep_shift ws mw seg (wordsOf seg.text) L st

theorem foldl_wrapStep_shift (ws : Str → Bool → Bool → α) (mw : α) :
    ∀ (segs : List TextSegment) (L : List (List TextSegment)) (st : WrapState α),
      segs.foldl (wrapStep ws mw) ⟨L ++ st.lines, st.currentLine, st.currentWidth⟩ =
        ⟨L ++ (segs.foldl (wrapStep ws mw) st).lines,
          (segs.foldl (wrapStep ws mw) st).currentLine,
          (segs.foldl (wrapStep ws mw) st).currentWidth⟩ := by
  intro segs
  induction segs with
  | nil => intro L st; rfl
  | cons s rest ih =>
    intro L st
    rw [List.foldl_cons, List.foldl_cons, wrapStep_shift ws mw L st s]
    exact ih L (wrapStep ws mw st s)

omit [LinearOrderedAddCommMonoid α] in
theorem closeLines_shift (L : List (List TextSegment)) (st : WrapState α) :
    closeLines (WrapState.mk (L ++ st.lines) st.currentLine st.currentWidth) =
      L ++ closeLines st := by
  unfold closeLines
  by_cases h : st.currentLine = [] <;> simp [h]

/-- C9 (amended): a run with the line-break flag always closes the
current line, regardless of the remaining width and of the styles carried
by the run: the wrapped output of a run sequence around a line-break run
is the wrap of the part before it (with its last line closed) followed by
the wrap of the part after it, computed from a fresh line.  Consecutive
line-break runs therefore produce no empty lines in the output: the lines
of the empty-between-breaks portion contribute nothing. -/
theorem c9_linebreak_forces_new_line (ws : Str → Bool → Bool → α) (mw : α)
    (xs ys : List TextSegment) (s : TextSegment) (hs : s.newline = true) :
    splitIntoLines ws mw (xs ++ s :: ys) =
      splitIntoLines ws mw (xs ++ [s]) ++ splitIntoLines ws mw ys := by
  unfold splitIntoLines
  rw [List.foldl_append, List.foldl_append]
  set st := xs.foldl (wrapStep ws mw) (WrapState.mk [] [] 0) with hst
  have hns : wrapStep ws mw st s = WrapState.mk (closeLines st) [] 0 := by
    simp only [wrapStep, closeLines]
    rw [if_pos hs]
  have hrhs1 : closeLines ([s].foldl (wrapStep ws mw) st) = closeLines st := by
    rw [List.foldl_cons, List.foldl_nil, hns]
    simp [closeLines]
  rw [hrhs1, List.foldl_cons, hns]
  have hshape : (WrapState.mk (closeLines st) ([] : List TextSegment) (0 : α)) =
      (WrapState.mk (closeLines st ++ (WrapState.mk ([] : List (List TextSegment)) ([] : List TextSegment) (0 : α)).lines)
        (WrapState.mk ([] : List (List TextSegment)) ([] : List TextSegment) (0 : α)).currentLine
        (WrapState.mk ([] : List (List TextSegment)) ([] : List TextSegment) (0 : α)).currentWidth) := by
    simp
  rw [hshape, foldl_wrapStep_shift ws mw ys (closeLines st) (WrapState.mk [] [] 0),
    closeLines_shift]

/-- C9 (counterexample to the claim as stated): two consecutive
line-break runs produce a single line boundary in the output — the
would-be empty line between them is dropped, so the produced line count
is 2, not 3. -/
theorem c9_counterexample :
    splitIntoLines intLenMeasure (100 : ℤ) [plainRun "ab", nlSeg, nlSeg, plainRun "cd"] =
      [[plainRun "ab"], [plainRun "cd"]] ∧
    (splitIntoLines intLenMeasure (100 : ℤ)
        [plainRun "ab", nlSeg, nlSeg, plainRun "cd"]).length = 2 ∧
    ¬ (splitIntoLines intLenMeasure (100 : ℤ)
        [plainRun "ab", nlSeg, nlSeg, plainRun "cd"]).length = 3 := by
  refine ⟨by decide, by decide, by decide⟩

/-- C9 (witness for the amended theorem). -/
theorem c9_witness :
    nlSeg.newline = true ∧
    splitIntoLines intLenMeasure (100 : ℤ) ([plainRun "ab"] ++ nlSeg :: [plainRun "cd"]) =
      splitIntoLines intLenMeasure (100 : ℤ) ([plainRun "ab"] ++ [nlSeg]) ++
        splitIntoLines intLenMeasure (100 : ℤ) [plainRun "cd"] :=
  ⟨rfl, c9_linebreak_forces_new_line intLenMeasure (100 : ℤ)
    [plainRun "ab"] [plainRun "cd"] nlSeg rfl⟩

/-! ## C3: row-major pagination -/

theorem takeWhile_range_lt (K n : ℕ) :
    ∀ (m s : ℕ), (List.range' s m).takeWhile (fun c => decide (K + c < n)) =
      List.range' s (min m (n - K - s)) := by
  intro m
  induction m with
  | zero => intro s; simp
  | succ m ih =>
    intro s
    rw [List.range'_succ, List.takeWhile_cons]
    by_cases h : K + s < n
    · rw [if_pos (by simpa using h), ih (s + 1)]
      have harith : min (m + 1) (n - K - s) = min m (n - K - (s + 1)) + 1 := by omega
      rw [harith, List.range'_succ]
    · rw [if_neg (by simpa using h)]
      have harith : min (m + 1) (n - K - s) = 0 := by omega
      rw [harith]
      rfl

theorem takeWhile_range (K n m : ℕ) :
    (List.range m).takeWhile (fun c => decide (K + c < n)) = List.range (min m (n - K)) := by
  rw [List.range_eq_range', List.range_eq_range', takeWhile_range_lt K n m 0]
  simp

theorem flatMap_range_min {β : Type} (f : ℕ → β) (b t : ℕ) :
    ∀ a, (List.range a).flatMap
        (fun i => (List.range (min b (t - i * b))).map (fun j => f (i * b + j))) =
      (List.range (min (a * b) t)).map f := by
  intro a
  induction a with
  | zero => simp
  | succ a ih =>
    rw [List.range_succ, List.flatMap_append, ih]
    simp only [List.flatMap_cons, List.flatMap_nil, List.append_nil]
    have hab : (a + 1) * b = a * b + b := by ring
    have hmin : min ((a + 1) * b) t = min (a * b) t + min b (t - a * b) := by omega
    rw [hmin, List.range_add, List.map_append, List.map_map]
    congr 1
    by_cases hcase : t ≤ a * b
    · have h0 : t - a * b = 0 := by omega
      rw [h0]
      simp
    · have hmab : min (a * b) t = a * b := by omega
      rw [hmab]
      rfl

theorem totalPages_mul_ge (n lpp : ℕ) (h : 0 < lpp) : n ≤ totalPages n lpp * lpp := by
  by_contra hcon
  push_neg at hcon
  have h2 : (totalPages n lpp + 1) * lpp ≤ n + lpp - 1 := by
    have he : (totalPages n lpp + 1) * lpp = totalPages n lpp * lpp + lpp := by ring
    omega
  have h3 : totalPages n lpp + 1 ≤ (n + lpp - 1) / lpp :=
    (Nat.le_div_iff_mul_le h).mpr h2
  have h4 : (n + lpp - 1) / lpp = totalPages n lpp := rfl
  omega

theorem totalPages_le (n lpp m : ℕ) (h : 0 < lpp) (hm : n ≤ m * lpp) :
    totalPages n lpp ≤ m := by
  have hle : n + lpp - 1 ≤ lpp - 1 + lpp * m := by
    have he : m * lpp = lpp * m := Nat.mul_comm m lpp
    omega
  have h2 : (n + lpp - 1) / lpp ≤ (lpp - 1 + lpp * m) / lpp :=
    Nat.div_le_div_right hle
  have h3 : (lpp - 1 + lpp * m) / lpp = (lpp - 1) / lpp + m :=
    Nat.add_mul_div_left _ _ h
  have hsmall : (lpp - 1) / lpp = 0 := Nat.div_eq_of_lt (by omega)
  have h4 : (n + lpp - 1) / lpp = totalPages n lpp := rfl
  omega

theorem generatePlacements_eq (fmt : PaperFormat) (n : ℕ)
    (hc : 0 < fmt.columns) (hr : 0 < fmt.rows) :
    generatePlacements fmt n = (List.range n).map (placeOf fmt) := by
  have hlpp0 : 0 < fmt.columns * fmt.rows := Nat.mul_pos hc hr
  have h1 : n ≤ totalPages n (fmt.columns * fmt.rows) * (fmt.columns * fmt.rows) :=
    totalPages_mul_ge n (fmt.columns * fmt.rows) hlpp0
  simp only [generatePlacements]
  have hinner : ∀ page : ℕ,
      (List.range fmt.rows).flatMap (fun row =>
        ((List.range fmt.columns).takeWhile (fun col =>
            decide (page * (fmt.columns * fmt.rows) + row * fmt.columns + col < n))).map
          (fun col => placementAt fmt page row col
            (page * (fmt.columns * fmt.rows) + row * fmt.columns + col))) =
      (List.range (min (fmt.columns * fmt.rows)
          (n - page * (fmt.columns * fmt.rows)))).map
        (fun w => placeOf fmt (page * (fmt.columns * fmt.rows) + w)) := by
    intro page
    have hA : ∀ row : ℕ,
        ((List.range fmt.columns).takeWhile (fun col =>
            decide (page * (fmt.columns * fmt.rows) + row * fmt.columns + col < n))).map
          (fun col => placementAt fmt page row col
            (page * (fmt.columns * fmt.rows) + row * fmt.columns + col)) =
        (List.range (min fmt.columns
            ((n - page * (fmt.columns * fmt.rows)) - row * fmt.columns))).map
          (fun j => placementAt fmt page ((row * fmt.columns + j) / fmt.columns)
            ((row * fmt.columns + j) % fmt.columns)
            (page * (fmt.columns * fmt.rows) + (row * fmt.columns + j))) := by
      intro row
      rw [takeWhile_range (page * (fmt.columns * fmt.rows) + row * fmt.columns) n
        fmt.columns, ← Nat.sub_sub]
      apply List.map_congr_left
      intro j hj
      have hjc : j < fmt.columns := by
        have := List.mem_range.mp hj
        omega
      have hdiv : (row * fmt.columns + j) / fmt.columns = row := by
        rw [Nat.add_comm, Nat.mul_comm, Nat.add_mul_div_left j row hc,
          Nat.div_eq_of_lt hjc]
        omega
      have hmod : (row * fmt.columns + j) % fmt.columns = j := by
        rw [Nat.add_comm, Nat.mul_comm, Nat.add_mul_mod_self_left,
          Nat.mod_eq_of_lt hjc]
      rw [hdiv, hmod, Nat.add_assoc]
    rw [congrArg (List.flatMap (List.range fmt.rows)) (funext hA),
      flatMap_range_min
        (fun w => placementAt fmt page (w / fmt.columns) (w % fmt.columns)
          (page * (fmt.columns * fmt.rows) + w))
        fmt.columns (n - page * (fmt.columns * fmt.rows)) fmt.rows,
      Nat.mul_comm fmt.rows fmt.columns]
    apply List.map_congr_left
    intro w hw
    have hwl : w < fmt.columns * fmt.rows := by
      have := List.mem_range.mp hw
      omega
    have hdiv2 : (page * (fmt.columns * fmt.rows) + w) / (fmt.columns * fmt.rows)
        = page := by
      rw [Nat.add_comm, Nat.mul_comm page, Nat.add_mul_div_left w page hlpp0,
        Nat.div_eq_of_lt hwl]
      omega
    have hmod2 : (page * (fmt.columns * fmt.rows) + w) % (fmt.columns * fmt.rows)
        = w := by
      rw [Nat.add_comm, Nat.mul_comm page, Nat.add_mul_mod_self_left,
        Nat.mod_eq_of_lt hwl]
    simp only [placeOf]
    rw [hdiv2, hmod2]
  rw [congrArg (List.flatMap (List.range (totalPages n (fmt.columns * fmt.rows))))
      (funext hinner),
    flatMap_range_min (placeOf fmt) (fmt.columns * fmt.rows) n
      (totalPages n (fmt.columns * fmt.rows)),
    min_eq_right h1]

/-- C3 (confirmed): the pagination of `generatePDF` is row-major and
deterministic.  For positive column and row counts, the emitted placement
list is exactly one placement per record index `i` in order, with
`page = i / labelsPerPage`, `row = (i % labelsPerPage) / columns`,
`column = (i % labelsPerPage) % columns` where
`labelsPerPage = columns * rows`, and with box origin
`x = marginLeft + column * (labelWidth + horizontalGap)`,
`y = marginTop + row * (labelHeight + verticalGap)` (carried by
`placementAt` inside `placeOf`); and `totalPages` is the least page count
whose capacity covers the records, i.e. the ceiling of
`recordCount / labelsPerPage`. -/
theorem c3_pagination_rowmajor (fmt : PaperFormat) (n : ℕ)
    (hc : 0 < fmt.columns) (hr : 0 < fmt.rows) :
    generatePlacements fmt n = (List.range n).map (placeOf fmt) ∧
    n ≤ totalPages n (fmt.columns * fmt.rows) * (fmt.columns * fmt.rows) ∧
    ∀ m, n ≤ m * (fmt.columns * fmt.rows) → totalPages n (fmt.columns * fmt.rows) ≤ m :=
  ⟨generatePlacements_eq fmt n hc hr,
   totalPages_mul_ge n (fmt.columns * fmt.rows) (Nat.mul_pos hc hr),
   fun m hm => totalPages_le n (fmt.columns * fmt.rows) m (Nat.mul_pos hc hr) hm⟩

/-- C3 (witness): the spec's concrete instance — 7 records on a 2-column,
3-row format: 6 labels per page, 2 pages, and record index 6 lands on
page 1, row 0, column 0. -/
theorem c3_witness :
    (0 < (2 : ℕ) ∧ 0 < (3 : ℕ)) ∧
    generatePlacements ⟨612, 792, 2, 3, 10, 5, 7, 9, 1, 2⟩ 7 =
      (List.range 7).map (placeOf ⟨612, 792, 2, 3, 10, 5, 7, 9, 1, 2⟩) ∧
    totalPages 7 (2 * 3) = 2 ∧
    (placeOf ⟨612, 792, 2, 3, 10, 5, 7, 9, 1, 2⟩ 6).page = 1 ∧
    (placeOf ⟨612, 792, 2, 3, 10, 5, 7, 9, 1, 2⟩ 6).row = 0 ∧
    (placeOf ⟨612, 792, 2, 3, 10, 5, 7, 9, 1, 2⟩ 6).column = 0 :=
  ⟨⟨by decide, by decide⟩,
   (c3_pagination_rowmajor ⟨612, 792, 2, 3, 10, 5, 7, 9, 1, 2⟩ 7
     (by decide) (by decide)).1,
   by decide, by decide, by decide, by decide⟩
